import Mathlib

/-!
Verification of the Kiro CLI setup component (`KiroCliSetup`) of BMAD-METHOD.

Text is modelled as `List Char` (JS strings are sequences of code points for
the purposes of the regexes used here, none of which involve surrogate
pairs).  Each definition is a direct shallow embedding of the corresponding
JavaScript function; filesystem effects are modelled by explicit state
passing, and fallible filesystem operations take a failure oracle so that
the error-handling paths of the source are represented faithfully.
-/

/-! ## JS character classes

`isJsWs` is the character set of the JavaScript regex class `\s` (and of
`String.prototype.trim`): space, tab, LF, VT, FF, CR, NBSP, and the Unicode
space separators plus line/paragraph separators and the BOM. -/

def isJsWs (c : Char) : Bool :=
  c.toNat == 32 || c.toNat == 9 || c.toNat == 10 || c.toNat == 11 ||
  c.toNat == 12 || c.toNat == 13 || c.toNat == 160 || c.toNat == 5760 ||
  (8192 ≤ c.toNat && c.toNat ≤ 8202) || c.toNat == 8232 ||
  c.toNat == 8233 || c.toNat == 8239 || c.toNat == 8287 ||
  c.toNat == 12288 || c.toNat == 65279

/-- ASCII lowercasing, as `String.prototype.toLowerCase` acts on ASCII
characters (its Unicode case mappings on other characters are irrelevant to
the properties proved here, since the final sanitization step deletes every
non-`[a-z0-9-]` character). -/
def jsToLower (c : Char) : Char :=
  if 65 ≤ c.toNat && c.toNat ≤ 90 then Char.ofNat (c.toNat + 32) else c

/-- Membership in the character class `[a-z0-9-]`. -/
def allowedChar (c : Char) : Bool :=
  (97 ≤ c.toNat && c.toNat ≤ 122) || (48 ≤ c.toNat && c.toNat ≤ 57) ||
  c.toNat == 45

/-- `String.prototype.trim`: strip `isJsWs` characters from both ends. -/
def jsTrim (l : List Char) : List Char :=
  ((l.dropWhile isJsWs).reverse.dropWhile isJsWs).reverse

/-! ## Identifier sanitization

`sanitizeAgentName` (kiro-cli.js): `name.toLowerCase()`, then
`.replaceAll(/\s+/g, '-')` (each maximal whitespace run becomes one
hyphen), then `.replaceAll(/[^a-z0-9-]/g, '')`. -/

theorem dropWhile_length_le (p : Char → Bool) :
    ∀ l : List Char, (l.dropWhile p).length ≤ l.length := by
  intro l
  induction l with
  | nil => simp [List.dropWhile]
  | cons c rest ih =>
    by_cases h : p c
    · simp only [List.dropWhile, h]
      exact Nat.le_succ_of_le ih
    · simp [List.dropWhile, h]

/-- `replaceAll(/\s+/g, '-')`: replace every maximal run of `\s` characters
by a single `'-'`. -/
def collapseWs : List Char → List Char
  | [] => []
  | c :: rest =>
    if isJsWs c then '-' :: collapseWs (rest.dropWhile isJsWs)
    else c :: collapseWs rest
termination_by l => l.length
decreasing_by
  · simpa using Nat.lt_succ_of_le (dropWhile_length_le isJsWs rest)
  · simp

def sanitizeAgentName (name : List Char) : List Char :=
  (collapseWs (name.map jsToLower)).filter allowedChar

/-! ## Regex scanners

Deterministic models of the five regular expressions of
`parseCompiledAgent`, with JavaScript leftmost-match semantics: the scan
tries every start position from the left, and the first position at which
the whole pattern matches wins. -/

/-- Attempt the suffix of `/<agent\s+([^>]+)>/` at the text standing right
after a literal `<agent`: at least one `\s` character first, then at least
two characters before the next `'>'` in total (the `\s+` and the `[^>]+`
each need one), capturing what the backtracking engine assigns to
`([^>]+)`: everything from the end of the maximal whitespace run to just
before the `'>'`, or, when everything before the `'>'` is whitespace, just
the one character the engine gives back to `[^>]+`. -/
def agentTagAt (cs : List Char) : Option (List Char) :=
  match cs with
  | [] => none
  | c :: _ =>
    if isJsWs c then
      let before := cs.takeWhile (fun x => x != '>')
      if 2 ≤ before.length && before.length < cs.length then
        let r := before.dropWhile isJsWs
        some (if r.isEmpty then [before.getLastD ' '] else r)
      else none
    else none

/-- Leftmost match of `/<agent\s+([^>]+)>/`: the capture group (the
attribute text of the first opening agent tag), or `none`. -/
def findAgentAttrs : List Char → Option (List Char)
  | [] => none
  | c :: rest =>
    if ("<agent".data).isPrefixOf (c :: rest) then
      match agentTagAt ((c :: rest).drop 6) with
      | some cap => some cap
      | none => findAgentAttrs rest
    else findAgentAttrs rest

/-- Text standing before the first occurrence of `cls`, or `none` when
`cls` does not occur: the capture of a lazy `([\s\S]*?)` followed by the
literal `cls`. -/
def firstSplitBefore (cls : List Char) : List Char → Option (List Char)
  | [] => if cls.isEmpty then some [] else none
  | c :: rest =>
    if cls.isPrefixOf (c :: rest) then some []
    else (firstSplitBefore cls rest).map (fun l => c :: l)

/-- Attempt `/opn([\s\S]*?)cls/` anchored at the start of `cs`. -/
def betweenAt (opn cls : List Char) (cs : List Char) : Option (List Char) :=
  if opn.isPrefixOf cs then firstSplitBefore cls (cs.drop opn.length)
  else none

/-- Leftmost match of `/opn([\s\S]*?)cls/` (used for the `<persona>` and
`<menu>` blocks). -/
def findBetween (opn cls : List Char) : List Char → Option (List Char)
  | [] => none
  | c :: rest =>
    match betweenAt opn cls (c :: rest) with
    | some s => some s
    | none => findBetween opn cls rest

/-- Attempt `/opn([^<]+)cls/` anchored at the start of `cs` (the shape of
the persona sub-field regexes, e.g. `/<role>([^<]+)<\/role>/`): the greedy
`[^<]+` runs to the first `'<'`, must be nonempty, and the closing literal
must follow. -/
def taggedAt (opn cls : List Char) (cs : List Char) : Option (List Char) :=
  if opn.isPrefixOf cs then
    let after := cs.drop opn.length
    let seg := after.takeWhile (fun x => x != '<')
    if !seg.isEmpty && cls.isPrefixOf (after.drop seg.length) then some seg
    else none
  else none

/-- Leftmost match of `/opn([^<]+)cls/`. -/
def findTagged (opn cls : List Char) : List Char → Option (List Char)
  | [] => none
  | c :: rest =>
    match taggedAt opn cls (c :: rest) with
    | some s => some s
    | none => findTagged opn cls rest

/-- Attempt `/key([^"]+)"/` anchored at the start of `cs` (the shape of the
attribute regexes, e.g. `/name="([^"]+)"/` with `key` the literal
`name="`): the greedy `[^"]+` runs to the first `'"'`, must be nonempty,
and the closing quote must exist. -/
def attrAt (key : List Char) (cs : List Char) : Option (List Char) :=
  if key.isPrefixOf cs then
    let after := cs.drop key.length
    let seg := after.takeWhile (fun x => x != '"')
    if !seg.isEmpty && seg.length < after.length then some seg
    else none
  else none

/-- Leftmost match of `/key([^"]+)"/` over the attribute text. -/
def findAttr (key : List Char) : List Char → Option (List Char)
  | [] => none
  | c :: rest =>
    match attrAt key (c :: rest) with
    | some s => some s
    | none => findAttr key rest

structure MenuItem where
  trigger : List Char
  description : List Char
deriving DecidableEq

/-- Attempt `/<item\s+cmd="([^"]+)"[^>]*>([^<]+)<\/item>/` anchored at the
start of `cs`.  Backtracking makes the match deterministic: after `<item`
at least one `\s`, then the maximal whitespace run, then the literal
`cmd="`, the greedy `[^"]+` to the first quote, the greedy `[^>]*` to the
first `'>'`, the greedy `[^<]+` to the first `'<'`, then the literal
`</item>`.  Returns the item (description trimmed, as the source does) and
the number of characters the match consumed. -/
def itemAt (cs : List Char) : Option (MenuItem × Nat) :=
  if ("<item".data).isPrefixOf cs then
    let a0 := cs.drop 5
    match a0 with
    | [] => none
    | c :: _ =>
      if isJsWs c then
        let a1 := a0.dropWhile isJsWs
        if ("cmd=\"".data).isPrefixOf a1 then
          let a2 := a1.drop 5
          let trig := a2.takeWhile (fun x => x != '"')
          if !trig.isEmpty && trig.length < a2.length then
            let a3 := a2.drop (trig.length + 1)
            let skip := a3.takeWhile (fun x => x != '>')
            if skip.length < a3.length then
              let a4 := a3.drop (skip.length + 1)
              let descr := a4.takeWhile (fun x => x != '<')
              let a5 := a4.drop descr.length
              if !descr.isEmpty && ("</item>".data).isPrefixOf a5 then
                some (⟨trig, jsTrim descr⟩, cs.length - (a5.length - 7))
              else none
            else none
          else none
        else none
      else none
  else none

/-- The `exec` loop over `itemRegex` with the `g` flag: successive
non-overlapping leftmost matches, in source order.  The function recurses
structurally on a fuel argument so that it reduces in the kernel; every
step either advances by one character or consumes a whole match (at least
the literal `<item`, so `k ≥ 1` and `max k 1 = k`), hence `cs.length + 1`
steps always suffice and the fuel never runs out. -/
def menuItemsLoopFuel : Nat → List Char → List MenuItem
  | 0, _ => []
  | _ + 1, [] => []
  | fuel + 1, c :: rest =>
    match itemAt (c :: rest) with
    | some (it, k) =>
      it :: menuItemsLoopFuel fuel ((c :: rest).drop (max k 1))
    | none => menuItemsLoopFuel fuel rest

def menuItemsLoop (cs : List Char) : List MenuItem :=
  menuItemsLoopFuel (cs.length + 1) cs

/-! ## Parsed agent data -/

structure Artifact where
  name : List Char
  description : List Char
deriving DecidableEq

structure AgentData where
  name : List Char
  title : List Char
  icon : List Char
  role : List Char
  identity : List Char
  communicationStyle : List Char
  principles : List Char
  menuItems : List MenuItem
deriving DecidableEq

/-- One persona sub-field: search the captured `<persona>` block (when one
was found) with `/opn([^<]+)cls/` and trim the capture; an absent block or
sub-field becomes the empty string. -/
def personaField (opn cls content : List Char) : List Char :=
  match findBetween ("<persona>".data) ("</persona>".data) content with
  | none => []
  | some pc =>
    match findTagged opn cls pc with
    | some s => jsTrim s
    | none => []

/-- The menu items: run the item loop over the captured `<menu>` block; an
absent block becomes the empty list. -/
def menuField (content : List Char) : List MenuItem :=
  match findBetween ("<menu>".data) ("</menu>".data) content with
  | none => []
  | some mc => menuItemsLoop mc

/-- `parseCompiledAgent(content, artifact)` (kiro-cli.js): extract the
first `<agent ...>` tag's attributes (no tag means `null`), the persona
sub-fields (absent block or sub-field becomes the empty string, trimmed
otherwise), and the menu items (absent block becomes the empty list);
attribute fallbacks are `artifact.name`, `artifact.description`, and the
hardcoded glyph `🤖`. -/
def parseCompiledAgent (content : List Char) (artifact : Artifact) :
    Option AgentData :=
  match findAgentAttrs content with
  | none => none
  | some attrs =>
    some
      { name := (findAttr ("name=\"".data) attrs).getD artifact.name
        title := (findAttr ("title=\"".data) attrs).getD artifact.description
        icon := (findAttr ("icon=\"".data) attrs).getD ("🤖".data)
        role := personaField ("<role>".data) ("</role>".data) content
        identity := personaField ("<identity>".data) ("</identity>".data) content
        communicationStyle := personaField ("<communication_style>".data)
          ("</communication_style>".data) content
        principles := personaField ("<principles>".data) ("</principles>".data)
          content
        menuItems := menuField content }

/-! ## Configuration object and schema validation

The schema validator is an external collaborator (Ajv compiled against
`kiro-agent-schema.json`); it is modelled as a black box
`validate(config) -> boolean + errors`, exactly the contract the source
consumes. -/

structure AgentConfig where
  name : List Char
  description : List Char
  prompt : List Char
  tools : List (List Char)
  mcpServers : List (List Char × List Char)
  useLegacyMcpJson : Bool
  resources : List (List Char)
deriving DecidableEq

/-- One Ajv field-level validation error. -/
structure VErr where
  instancePath : List Char
  message : List Char
deriving DecidableEq

/-- The external validator: a verdict plus the field-level error list Ajv
exposes as `validate.errors`. -/
def Validator : Type := AgentConfig → Bool × List VErr

/-- The per-error text `` `${err.instancePath}: ${err.message}` ``. -/
def fmtErr (e : VErr) : List Char :=
  e.instancePath ++ (": ".data) ++ e.message

/-- `Array.prototype.join(', ')`. -/
def joinComma : List (List Char) → List Char
  | [] => []
  | [x] => x
  | x :: y :: rest => x ++ (", ".data) ++ joinComma (y :: rest)

/-- `validateAgentJson(agentConfig)` (kiro-cli.js): throw
`Invalid agent schema: <all errors, comma-joined>` when the validator
rejects. -/
def validateAgentJson (V : Validator) (cfg : AgentConfig) :
    Except (List Char) Unit :=
  if (V cfg).1 then Except.ok ()
  else Except.error
    (("Invalid agent schema: ".data) ++ joinComma (((V cfg).2).map fmtErr))

/-- Node `path.posix.join('.', s)` for the slash-free nonempty component
used here: normalization drops the leading `.` segment, so the result is
`s` itself. -/
def posixJoinDot (s : List Char) : List Char :=
  if s.isEmpty then ".".data else s

/-- The fixed-shape configuration object `createAgentConfig` builds before
validating (kiro-cli.js lines 449-457). -/
def mkAgentConfig (agentName : List Char) (d : AgentData) : AgentConfig where
  name := agentName
  description :=
    d.name ++ (" - ".data) ++ (if d.role.isEmpty then d.title else d.role)
  prompt := ("file://".data) ++ posixJoinDot (agentName ++ ("-prompt.md".data))
  tools := ["*".data]
  mcpServers := []
  useLegacyMcpJson := true
  resources := []

/-- `createAgentConfig(agentName, agentData)` (kiro-cli.js): build the
fixed-shape object, validate it, and only then return it; a validation
failure propagates as the thrown error. -/
def createAgentConfig (V : Validator) (agentName : List Char)
    (d : AgentData) : Except (List Char) AgentConfig :=
  match validateAgentJson V (mkAgentConfig agentName d) with
  | Except.ok _ => Except.ok (mkAgentConfig agentName d)
  | Except.error e => Except.error e

/-! ## Prompt generation -/

/-- One numbered menu line `` `${i + 1}. **${item.trigger}**: ${item.description}\n` ``. -/
def menuLine (n : Nat) (it : MenuItem) : List Char :=
  (Nat.repr n).data ++ (". **".data) ++ it.trigger ++ ("**: ".data) ++
    it.description ++ ['\n']

/-- The `for (const [i, item] of menuItems.entries())` loop body, numbering
from `n`. -/
def menuLines (n : Nat) : List MenuItem → List Char
  | [] => []
  | it :: rest => menuLine n it ++ menuLines (n + 1) rest

/-- The closing instructional paragraph, always appended. -/
def closingInstr (name : List Char) : List Char :=
  ("## Instructions\nYou are ".data) ++ name ++
    (", part of the BMad Method. Follow your role and principles while assisting users with their development needs.\n".data)

/-- `generatePrompt(agentData)` (kiro-cli.js), transcribed statement by
statement: `prompt` starts as the title line and each `if` appends its
section.  (`principles` is always a string here — `parseCompiledAgent`
never produces an array — so the `typeof principles === 'string'` branch is
the one taken.) -/
def generatePrompt (d : AgentData) : List Char :=
  let p0 := ("# ".data) ++ d.name ++ (" ".data) ++ d.icon ++ ("\n\n".data)
  let p1 := if d.role.isEmpty then p0 else
    p0 ++ ("## Role\n".data) ++ d.role ++ ("\n\n".data)
  let p2 := if d.identity.isEmpty then p1 else
    p1 ++ ("## Identity\n".data) ++ d.identity ++ ("\n\n".data)
  let p3 := if d.communicationStyle.isEmpty then p2 else
    p2 ++ ("## Communication Style\n".data) ++ d.communicationStyle ++ ("\n\n".data)
  let p4 := if d.principles.isEmpty then p3 else
    p3 ++ ("## Principles\n".data) ++ d.principles ++ ("\n\n".data)
  let p5 := if d.menuItems.isEmpty then p4 else
    p4 ++ ("## Available Workflows\n".data) ++ menuLines 1 d.menuItems ++ ("\n".data)
  p5 ++ closingInstr d.name

/-- A titled section, emitted only when the field is non-empty (the
specification's rule, §4.3). -/
def optSection (header : String) (body : List Char) : List Char :=
  if body.isEmpty then [] else header.data ++ body ++ ("\n\n".data)

/-- The Record-to-Document Formatter as the specification words it (§4.3):
a titled section for each non-empty field, the menu section numbering
entries 1, 2, ... in extraction order, and the closing paragraph always
appended. -/
def generatePromptSpec (d : AgentData) : List Char :=
  (("# ".data) ++ d.name ++ (" ".data) ++ d.icon ++ ("\n\n".data)) ++
  optSection "## Role\n" d.role ++
  optSection "## Identity\n" d.identity ++
  optSection "## Communication Style\n" d.communicationStyle ++
  optSection "## Principles\n" d.principles ++
  (if d.menuItems.isEmpty then [] else
    ("## Available Workflows\n".data) ++
    (d.menuItems.enum.map (fun p => menuLine (p.1 + 1) p.2)).flatten ++ ("\n".data)) ++
  closingInstr d.name

/-! ## File pair writer (`processAgentArtifact`, writing phase)

The filesystem is the list of paths present in the agents directory; a
`WOracle` says which of the fallible operations of the `try`/`catch` block
succeed.  `fs.remove(...).catch(() => {})` swallows removal errors, so a
failed removal simply leaves the path in place. -/

structure WOracle where
  configOk : Bool
  writePromptOk : Bool
  writeJsonOk : Bool
  removePromptOk : Bool
  removeJsonOk : Bool

def fsWrite (p : List Char) (fs : List (List Char)) : List (List Char) :=
  if p ∈ fs then fs else fs ++ [p]

def fsRemove (ok : Bool) (p : List Char) (fs : List (List Char)) :
    List (List Char) :=
  if ok then fs.filter (fun q => q != p) else fs

/-- The `catch` block of `processAgentArtifact`: best-effort removal of the
prompt file and then of the json file, each failure swallowed. -/
def cleanupPair (o : WOracle) (jsonPath promptPath : List Char)
    (fs : List (List Char)) : List (List Char) :=
  fsRemove o.removeJsonOk jsonPath (fsRemove o.removePromptOk promptPath fs)

/-- The `try`/`catch` block of `processAgentArtifact` (kiro-cli.js lines
347-360): build the config (validation may throw), generate the prompt,
write the prompt file then the json file; on any failure remove both target
paths (errors swallowed) and rethrow.  Returns whether the call returned
normally, and the final filesystem. -/
def processAgentWrites (o : WOracle) (jsonPath promptPath : List Char)
    (fs : List (List Char)) : Bool × List (List Char) :=
  if o.configOk then
    if o.writePromptOk then
      let fs1 := fsWrite promptPath fs
      if o.writeJsonOk then (true, fsWrite jsonPath fs1)
      else (false, cleanupPair o jsonPath promptPath fs1)
    else (false, cleanupPair o jsonPath promptPath fs)
  else (false, cleanupPair o jsonPath promptPath fs)

/-! ## Selective cleanup (`cleanup`, kiro-cli.js lines 110-164) -/

/-- The target tree: the file lists of `.kiro/agents` and `.kiro/commands`
(`none` when the directory does not exist) and whether `.kiro/steering`
exists. -/
structure KiroTree where
  agents : Option (List (List Char))
  commands : Option (List (List Char))
  steering : Bool
deriving DecidableEq

/-- Which individual removals succeed; a failed one is logged with
`console.warn` and skipped. -/
structure RemovalOracle where
  agentsOk : List Char → Bool
  commandsOk : List Char → Bool
  steeringOk : Bool

def startsWithBmad (f : List Char) : Bool := ("bmad".data).isPrefixOf f

/-- The per-directory loop: `for (const file of bmadFiles)` try to remove
each, continuing past failures. -/
def removeFiles (ok : List Char → Bool) :
    List (List Char) → List (List Char) → List (List Char)
  | [], dir => dir
  | f :: rest, dir =>
    removeFiles ok rest (if ok f then dir.filter (fun g => g != f) else dir)

/-- `cleanup(projectDir)`: in each of the agents and commands directories
(when present) remove the files whose name starts with `bmad`; remove the
steering directory wholesale when present.  Every failure is logged and
skipped. -/
def cleanupTree (o : RemovalOracle) (t : KiroTree) : KiroTree where
  agents := t.agents.map (fun fs => removeFiles o.agentsOk (fs.filter startsWithBmad) fs)
  commands := t.commands.map (fun fs => removeFiles o.commandsOk (fs.filter startsWithBmad) fs)
  steering := if t.steering then (if o.steeringOk then false else true) else false

/-! ## Module discovery (`discoverAllModules`, kiro-cli.js lines 290-318) -/

/-- One entry of `fs.readdir(bmadDir, { withFileTypes: true })` together
with whether `<bmadDir>/<name>/agents` exists. -/
structure ModuleEntry where
  name : List Char
  isDir : Bool
  hasAgents : Bool
deriving DecidableEq

/-- The `for (const entry of entries)` loop, pushing onto the accumulated
module list. -/
def discoverLoop (acc : List (List Char)) : List ModuleEntry → List (List Char)
  | [] => acc
  | e :: rest =>
    if e.isDir && e.name != ("core".data) && !(("_".data).isPrefixOf e.name)
        && e.hasAgents then
      discoverLoop (acc ++ [e.name]) rest
    else discoverLoop acc rest

/-- `discoverAllModules(bmadDir)`: push `core` first when
`<bmadDir>/core/agents` exists; then, when listing the root succeeded, scan
the entries in listing order; when listing failed, warn and return what was
accumulated. -/
def discoverAllModules (coreHasAgents : Bool) (readdirOk : Bool)
    (entries : List ModuleEntry) : List (List Char) :=
  let base := if coreHasAgents then [("core".data)] else []
  if readdirOk then discoverLoop base entries else base

/-! ## Orchestration (`setup`, kiro-cli.js lines 175-234), restricted to
the precondition check and the per-agent-artifact loop the claims are
about.  One `ArtifactOutcome` stands for one artifact together with what
`processAgentArtifact` does for it (`Except.error` = the unit throws). -/

structure ArtifactOutcome where
  name : List Char
  result : Except (List Char) Unit

/-- The `for (const artifact of agentArtifacts)` loop with its per-unit
`try`/`catch`: a throwing unit is logged as a warning and pushed onto
`skippedItems`; the loop always continues.  Returns `(agentCount,
skippedItems, names of the units processed successfully)`. -/
def runAgentLoop : List ArtifactOutcome →
    Nat × List (List Char × List Char) × List (List Char)
  | [] => (0, [], [])
  | a :: rest =>
    let r := runAgentLoop rest
    match a.result with
    | Except.ok _ => (r.1 + 1, r.2.1, a.name :: r.2.2)
    | Except.error msg => (r.1, (a.name, msg) :: r.2.1, r.2.2)

/-- `setup(projectDir, bmadDir, options)`, restricted to the detection
precondition and the agent loop: when no BMAD folder exists
(`detection.canProceed` false) the run throws before any unit is
processed; otherwise every unit is processed with per-unit isolation.
Returns the outcome together with the successfully processed units. -/
def setupAgents (bmadFolderName : List Char) (bmadExists : Bool)
    (artifacts : List ArtifactOutcome) :
    Except (List Char) (Nat × List (List Char × List Char)) × List (List Char) :=
  if bmadExists then
    let r := runAgentLoop artifacts
    (Except.ok (r.1, r.2.1), r.2.2)
  else
    (Except.error (("Cannot proceed: ".data) ++ bmadFolderName ++
      ("/ folder is required. Please install BMAD first.".data)), [])

/-! ## Specification-level predicates -/

/-- The specification's "opening structural tag with attributes", as pure
text decomposition: somewhere in the text stands `<agent`, then a `\s`
character, then at least one more character none of which (including the
whitespace character) is `'>'`, then `'>'`. -/
def HasAgentTag (cs : List Char) : Prop :=
  ∃ pre w mid post,
    cs = pre ++ ("<agent".data) ++ (w :: mid) ++ '>' :: post ∧
      isJsWs w = true ∧ mid ≠ [] ∧ '>' ∉ w :: mid

/-- The text contains an `opn ... cls` block: `opn` occurs, and `cls`
occurs somewhere after it. -/
def ContainsBlock (opn cls cs : List Char) : Prop :=
  ∃ pre mid post, cs = pre ++ opn ++ mid ++ cls ++ post

/-! ## Lemmas: sanitization (C2) -/

theorem allowed_not_ws (c : Char) (h : allowedChar c = true) :
    isJsWs c = false := by
  simp only [allowedChar, Bool.or_eq_true, Bool.and_eq_true, decide_eq_true_eq,
    beq_iff_eq] at h
  simp only [isJsWs, Bool.or_eq_false_iff, Bool.and_eq_false_iff,
    beq_eq_false_iff_ne, ne_eq, decide_eq_false_iff_not, not_le]
  omega

theorem allowed_toLower (c : Char) (h : allowedChar c = true) :
    jsToLower c = c := by
  simp only [allowedChar, Bool.or_eq_true, Bool.and_eq_true, decide_eq_true_eq,
    beq_iff_eq] at h
  simp only [jsToLower, Bool.and_eq_true, decide_eq_true_eq]
  rw [if_neg]
  omega

theorem map_toLower_id (l : List Char) (h : ∀ c ∈ l, allowedChar c = true) :
    l.map jsToLower = l := by
  induction l with
  | nil => rfl
  | cons c rest ih =>
    simp only [List.map_cons]
    rw [allowed_toLower c (h c (List.mem_cons_self c rest)),
      ih (fun x hx => h x (List.mem_cons_of_mem c hx))]

set_option maxHeartbeats 1000000 in
theorem collapseWs_id (l : List Char) (h : ∀ c ∈ l, isJsWs c = false) :
    collapseWs l = l := by
  induction l with
  | nil => rw [collapseWs.eq_1]
  | cons c rest ih =>
    rw [collapseWs.eq_2,
      if_neg (by rw [h c (List.mem_cons_self c rest)]; simp),
      ih (fun x hx => h x (List.mem_cons_of_mem c hx))]

theorem sanitize_all_allowed (s : List Char) :
    (sanitizeAgentName s).all allowedChar = true := by
  rw [List.all_eq_true]
  intro c hc
  exact List.of_mem_filter hc

theorem sanitize_idem (s : List Char) :
    sanitizeAgentName (sanitizeAgentName s) = sanitizeAgentName s := by
  have hall : ∀ c ∈ sanitizeAgentName s, allowedChar c = true :=
    List.all_eq_true.mp (sanitize_all_allowed s)
  show (collapseWs ((sanitizeAgentName s).map jsToLower)).filter allowedChar =
    sanitizeAgentName s
  rw [map_toLower_id _ hall,
    collapseWs_id _ (fun c hc => allowed_not_ws c (hall c hc)),
    List.filter_eq_self.mpr hall]

/-! ## Lemmas: prompt generation (C7) -/

theorem appendSection (pre : List Char) (hdr : String) (body : List Char) :
    (if body.isEmpty then pre else pre ++ hdr.data ++ body ++ ("\n\n".data)) =
    pre ++ optSection hdr body := by
  by_cases h : body.isEmpty <;> simp [optSection, h, List.append_assoc]

theorem menuLines_enumFrom (items : List MenuItem) :
    ∀ n : Nat, menuLines (n + 1) items =
      ((items.enumFrom n).map (fun p => menuLine (p.1 + 1) p.2)).flatten := by
  induction items with
  | nil => intro n; rfl
  | cons it rest ih =>
    intro n
    simp only [menuLines, List.enumFrom, List.map_cons, List.flatten_cons]
    rw [ih (n + 1)]

theorem menuLines_one (items : List MenuItem) :
    menuLines 1 items =
      (items.enum.map (fun p => menuLine (p.1 + 1) p.2)).flatten :=
  menuLines_enumFrom items 0

theorem generatePrompt_eq_spec (d : AgentData) :
    generatePrompt d = generatePromptSpec d := by
  by_cases h1 : d.role.isEmpty <;> by_cases h2 : d.identity.isEmpty <;>
    by_cases h3 : d.communicationStyle.isEmpty <;>
    by_cases h4 : d.principles.isEmpty <;>
    by_cases h5 : d.menuItems.isEmpty <;>
    simp [generatePrompt, generatePromptSpec, optSection, h1, h2, h3, h4, h5,
      menuLines_one, List.append_assoc]

/-! ## Lemmas: module discovery (C8) -/

/-- The condition under which the discovery loop includes an entry. -/
def goodEntry (e : ModuleEntry) : Bool :=
  e.isDir && e.name != ("core".data) && !(("_".data).isPrefixOf e.name)
    && e.hasAgents

theorem discoverLoop_eq (entries : List ModuleEntry) :
    ∀ acc, discoverLoop acc entries =
      acc ++ (entries.filter goodEntry).map (fun e => e.name) := by
  induction entries with
  | nil => intro acc; simp [discoverLoop]
  | cons e rest ih =>
    intro acc
    by_cases h : goodEntry e = true
    · rw [discoverLoop, if_pos (by simpa [goodEntry] using h), ih,
        List.filter_cons_of_pos h]
      simp
    · rw [discoverLoop, if_neg (by simpa [goodEntry] using h), ih,
        List.filter_cons_of_neg (by simpa using h)]

theorem discoverAllModules_eq (core readdirOk : Bool)
    (entries : List ModuleEntry) :
    discoverAllModules core readdirOk entries =
      (if core then [("core".data)] else []) ++
      (if readdirOk then (entries.filter goodEntry).map (fun e => e.name)
        else []) := by
  unfold discoverAllModules
  by_cases h : readdirOk <;> simp [h, discoverLoop_eq]

theorem goodEntry_name_ne_core (x : List Char) (entries : List ModuleEntry)
    (hx : x ∈ (entries.filter goodEntry).map (fun e => e.name)) :
    x ≠ ("core".data) := by
  rcases List.mem_map.mp hx with ⟨e, he, rfl⟩
  have hg := List.of_mem_filter he
  simp only [goodEntry, Bool.and_eq_true, bne_iff_ne, ne_eq] at hg
  exact hg.1.1.2

/-! ## Lemmas: configuration (C4, C9) -/

theorem mem_infix_joinComma (x : List Char) :
    ∀ L : List (List Char), x ∈ L → x <:+: joinComma L := by
  intro L
  induction L with
  | nil => intro h; cases h
  | cons y rest ih =>
    intro h
    rcases List.mem_cons.mp h with h1 | h2
    · subst h1
      cases rest with
      | nil => exact List.infix_refl x
      | cons z rs =>
        rw [joinComma]
        exact ((List.prefix_append x _).trans (List.prefix_append _ _)).isInfix
    · have hx := ih h2
      cases rest with
      | nil => cases h2
      | cons z rs =>
        rw [joinComma, List.append_assoc]
        exact hx.trans
          (((List.suffix_append (", ".data) (joinComma (z :: rs))).trans
            (List.suffix_append y _)).isInfix)

/-! ## Lemmas: setup loop (C6) -/

def isOkOutcome (a : ArtifactOutcome) : Bool :=
  match a.result with
  | Except.ok _ => true
  | Except.error _ => false

/-- The skipped-items entry an erroring unit contributes. -/
def errPair (a : ArtifactOutcome) : Option (List Char × List Char) :=
  match a.result with
  | Except.error m => some (a.name, m)
  | Except.ok _ => none

theorem runAgentLoop_eq (arts : List ArtifactOutcome) :
    runAgentLoop arts =
      ((arts.filter isOkOutcome).length, arts.filterMap errPair,
        (arts.filter isOkOutcome).map (fun a => a.name)) := by
  induction arts with
  | nil => rfl
  | cons a rest ih =>
    cases hr : a.result with
    | ok u =>
      simp only [runAgentLoop, hr, ih, List.filter_cons, List.filterMap_cons,
        isOkOutcome, errPair]
      simp [hr]
    | error m =>
      simp only [runAgentLoop, hr, ih, List.filter_cons, List.filterMap_cons,
        isOkOutcome, errPair]
      simp [hr]

theorem count_outcomes (arts : List ArtifactOutcome) :
    (arts.filter isOkOutcome).length + (arts.filterMap errPair).length =
      arts.length := by
  induction arts with
  | nil => rfl
  | cons a rest ih =>
    cases hr : a.result <;>
      simp only [List.filter_cons, List.filterMap_cons, isOkOutcome, errPair,
        hr] <;> simp <;> omega

/-! ## Lemmas: cleanup (C5) -/

theorem removeFiles_filter (ok : List Char → Bool) :
    ∀ (toRemove dir : List (List Char)),
      removeFiles ok toRemove dir =
        dir.filter (fun g => !(toRemove.contains g && ok g)) := by
  intro toRemove
  induction toRemove with
  | nil => intro dir; simp [removeFiles]
  | cons f rest ih =>
    intro dir
    rw [removeFiles, ih]
    by_cases hok : ok f = true
    · rw [if_pos hok, List.filter_filter]
      apply List.filter_congr
      intro g _
      by_cases hgf : g = f
      · subst hgf; simp [List.contains_cons, hok]
      · simp [List.contains_cons, hgf]
    · rw [if_neg hok]
      apply List.filter_congr
      intro g _
      by_cases hgf : g = f
      · subst hgf
        simp [List.contains_cons, Bool.eq_false_iff.mpr hok]
      · simp [List.contains_cons, hgf]

theorem mem_removeFiles (ok : List Char → Bool)
    (toRemove dir : List (List Char)) (g : List Char) :
    g ∈ removeFiles ok toRemove dir ↔
      g ∈ dir ∧ ¬(g ∈ toRemove ∧ ok g = true) := by
  rw [removeFiles_filter, List.mem_filter]
  simp only [Bool.not_eq_true', Bool.and_eq_false_iff, List.contains,
    Bool.not_eq_true]
  constructor
  · rintro ⟨hd, h⟩
    refine ⟨hd, ?_⟩
    rintro ⟨hm, hokg⟩
    rcases h with h | h
    · rw [List.elem_iff.mpr hm] at h; cases h
    · rw [h] at hokg; cases hokg
  · rintro ⟨hd, h⟩
    refine ⟨hd, ?_⟩
    by_cases hm : g ∈ toRemove
    · right
      by_cases hokg : ok g = true
      · exact absurd ⟨hm, hokg⟩ h
      · exact Bool.eq_false_iff.mpr hokg
    · left
      rw [← Bool.not_eq_true]
      intro he
      exact hm (List.elem_iff.mp he)

/-! ## Lemmas: the agent tag scanner (C3, C10) -/

theorem ws_ne_gt (c : Char) (h : isJsWs c = true) : c ≠ '>' := by
  intro hc
  rw [hc] at h
  exact absurd h (by decide)

theorem takeWhile_middle (p : Char → Bool) :
    ∀ (xs : List Char) (y : Char) (ys : List Char),
      (∀ x ∈ xs, p x = true) → p y = false →
      (xs ++ y :: ys).takeWhile p = xs ∧
        (xs ++ y :: ys).dropWhile p = y :: ys := by
  intro xs
  induction xs with
  | nil =>
    intro y ys _ hy
    constructor <;> simp [List.takeWhile, List.dropWhile, hy]
  | cons x rest ih =>
    intro y ys hall hy
    have hx : p x = true := hall x (List.mem_cons_self x rest)
    have := ih y ys (fun z hz => hall z (List.mem_cons_of_mem x hz)) hy
    constructor <;> simp [List.takeWhile, List.dropWhile, hx, this.1, this.2]

/-- The anchored condition under which `/\s+([^>]+)>/` matches at the start
of the text standing after `<agent`. -/
def AgentSuffixAt (cs : List Char) : Prop :=
  ∃ w mid post, cs = (w :: mid) ++ '>' :: post ∧ isJsWs w = true ∧
    mid ≠ [] ∧ '>' ∉ w :: mid

theorem agentTagAt_isSome_of (cs : List Char) (h : AgentSuffixAt cs) :
    agentTagAt cs ≠ none := by
  obtain ⟨w, mid, post, hcs, hw, hmid, hnot⟩ := h
  subst hcs
  have hmidall : ∀ x ∈ w :: mid, (x != '>') = true := by
    intro x hx
    simp only [bne_iff_ne, ne_eq]
    intro hEq
    exact hnot (hEq ▸ hx)
  have hgt : (('>' : Char) != '>') = false := by simp
  have htw := takeWhile_middle (fun x => x != '>') (w :: mid) '>' post
    hmidall hgt
  have hexp : (w :: mid) ++ '>' :: post = w :: (mid ++ '>' :: post) := by
    simp
  rw [hexp]
  simp only [agentTagAt]
  rw [if_pos hw]
  simp only [← hexp]
  rw [show ((w :: mid) ++ '>' :: post).takeWhile (fun x => x != '>') =
    w :: mid from by simpa using htw.1]
  have hlen1 : 2 ≤ (w :: mid).length := by
    cases mid with
    | nil => exact absurd rfl hmid
    | cons m ms => simp
  have hlen2 : (w :: mid).length < ((w :: mid) ++ '>' :: post).length := by
    simp
  rw [if_pos]
  · simp
  · simp only [Bool.and_eq_true, decide_eq_true_eq]
    exact ⟨hlen1, hlen2⟩

theorem agentTagAt_some_imp (cs : List Char) (cap : List Char)
    (h : agentTagAt cs = some cap) : AgentSuffixAt cs := by
  cases cs with
  | nil => simp [agentTagAt] at h
  | cons c rest =>
    rw [agentTagAt] at h
    by_cases hw : isJsWs c = true
    · rw [if_pos hw] at h
      simp only at h
      by_cases hcond : (2 ≤ ((c :: rest).takeWhile (fun x => x != '>')).length
          && ((c :: rest).takeWhile (fun x => x != '>')).length <
            (c :: rest).length) = true
      · have hcond' := hcond
        simp only [Bool.and_eq_true, decide_eq_true_eq] at hcond'
        obtain ⟨hlen2, hlenlt⟩ := hcond'
        set before := (c :: rest).takeWhile (fun x => x != '>') with hbdef
        have hsplit : before ++ (c :: rest).dropWhile (fun x => x != '>') =
          c :: rest := List.takeWhile_append_dropWhile _ _
        have hdropne : (c :: rest).dropWhile (fun x => x != '>') ≠ [] := by
          intro hnil
          rw [hnil, List.append_nil] at hsplit
          rw [hsplit] at hlenlt
          exact Nat.lt_irrefl _ hlenlt
        obtain ⟨y, ys, hdrop⟩ :=
          List.exists_cons_of_ne_nil hdropne
        have hy : (y != '>') = false := by
          have : ∀ l : List Char, l.dropWhile (fun x => x != '>') = y :: ys →
              (y != '>') = false := by
            intro l
            induction l with
            | nil => intro hl; cases hl
            | cons a as iha =>
              intro hl
              rw [List.dropWhile_cons] at hl
              by_cases ha : (a != '>') = true
              · rw [if_pos ha] at hl; exact iha hl
              · rw [if_neg ha] at hl
                cases hl
                simpa using ha
          exact this (c :: rest) hdrop
        have hyeq : y = '>' := by simpa using hy
        subst hyeq
        have hcne : (c != '>') = true := by simpa using ws_ne_gt c hw
        have hbm : before = c :: rest.takeWhile (fun x => x != '>') := by
          rw [hbdef, List.takeWhile_cons, if_pos hcne]
        refine ⟨c, rest.takeWhile (fun x => x != '>'), ys, ?_, hw, ?_, ?_⟩
        · rw [← hbm, ← hdrop, hsplit]
        · intro hmidnil
          rw [hbm, hmidnil] at hlen2
          simp at hlen2
        · intro hmem
          have hmem' : ('>' : Char) ∈
              (c :: rest).takeWhile (fun x => x != '>') := by
            rw [← hbdef, hbm]
            exact hmem
          have := List.mem_takeWhile_imp hmem'
          simp at this
      · rw [if_neg (by simpa using hcond)] at h
        cases h
    · rw [if_neg hw] at h
      cases h

theorem hasAgentTag_cons (c : Char) (rest : List Char)
    (h : HasAgentTag rest) : HasAgentTag (c :: rest) := by
  obtain ⟨pre, w, mid, post, hcs, hw, hmid, hnot⟩ := h
  exact ⟨c :: pre, w, mid, post, by rw [hcs]; simp, hw, hmid, hnot⟩

theorem findAgentAttrs_isSome_iff :
    ∀ cs : List Char, findAgentAttrs cs ≠ none ↔ HasAgentTag cs := by
  intro cs
  induction cs with
  | nil =>
    simp only [findAgentAttrs, ne_eq, not_true_eq_false, false_iff]
    rintro ⟨pre, w, mid, post, hcs, -, -, -⟩
    simp at hcs
  | cons c rest ih =>
    by_cases hpr : ("<agent".data).isPrefixOf (c :: rest) = true
    · obtain ⟨t, ht⟩ := List.isPrefixOf_iff_prefix.mp hpr
      have h6 : ("<agent".data).length = 6 := rfl
      have hdrop : (c :: rest).drop 6 = t := by
        rw [← ht, ← h6, List.drop_left]
      cases hat : agentTagAt ((c :: rest).drop 6) with
      | some cap =>
        have hfind : findAgentAttrs (c :: rest) = some cap := by
          rw [findAgentAttrs, if_pos hpr, hat]
        constructor
        · intro _
          have hsuf : AgentSuffixAt t :=
            agentTagAt_some_imp t cap (hdrop ▸ hat)
          obtain ⟨w, mid, post, hts, hw, hmid, hnot⟩ := hsuf
          refine ⟨[], w, mid, post, ?_, hw, hmid, hnot⟩
          rw [← ht, hts]
          simp [List.append_assoc]
        · intro _
          rw [hfind]
          simp
      | none =>
        have hfind : findAgentAttrs (c :: rest) = findAgentAttrs rest := by
          rw [findAgentAttrs, if_pos hpr, hat]
        rw [ne_eq, hfind, ← ne_eq, ih]
        constructor
        · exact hasAgentTag_cons c rest
        · rintro ⟨pre, w, mid, post, hcs, hw, hmid, hnot⟩
          cases pre with
          | nil =>
            exfalso
            have htEq : t = (w :: mid) ++ '>' :: post := by
              have h2 : ("<agent".data) ++ t =
                  ("<agent".data) ++ ((w :: mid) ++ '>' :: post) := by
                rw [ht, hcs]
                simp [List.append_assoc]
              exact List.append_cancel_left h2
            apply absurd hat
            rw [hdrop, htEq, ← ne_eq]
            exact agentTagAt_isSome_of _ ⟨w, mid, post, rfl, hw, hmid, hnot⟩
          | cons p pre' =>
            simp only [List.cons_append] at hcs
            injection hcs with hc hrest
            exact ⟨pre', w, mid, post, hrest, hw, hmid, hnot⟩
    · have hfind : findAgentAttrs (c :: rest) = findAgentAttrs rest := by
        rw [findAgentAttrs, if_neg hpr]
      rw [ne_eq, hfind, ← ne_eq, ih]
      constructor
      · exact hasAgentTag_cons c rest
      · rintro ⟨pre, w, mid, post, hcs, hw, hmid, hnot⟩
        cases pre with
        | nil =>
          exfalso
          apply hpr
          rw [List.isPrefixOf_iff_prefix]
          refine ⟨(w :: mid) ++ '>' :: post, ?_⟩
          rw [hcs]
          simp [List.append_assoc]
        | cons p pre' =>
          simp only [List.cons_append] at hcs
          injection hcs with hc hrest
          exact ⟨pre', w, mid, post, hrest, hw, hmid, hnot⟩

/-! ## Lemmas: block presence (persona / menu, C3) -/

theorem firstSplitBefore_some_imp (cls : List Char) :
    ∀ (l m : List Char), firstSplitBefore cls l = some m →
      ∃ post, l = (m ++ cls) ++ post := by
  intro l
  induction l with
  | nil =>
    intro m h
    rw [firstSplitBefore] at h
    by_cases hc : cls.isEmpty = true
    · rw [if_pos hc] at h
      injection h with hm
      subst hm
      have hcl : cls = [] := by simpa using hc
      exact ⟨[], by simp [hcl]⟩
    · rw [if_neg hc] at h
      cases h
  | cons c rest ih =>
    intro m h
    rw [firstSplitBefore] at h
    by_cases hp : cls.isPrefixOf (c :: rest) = true
    · rw [if_pos hp] at h
      injection h with hm
      subst hm
      obtain ⟨t, htp⟩ := List.isPrefixOf_iff_prefix.mp hp
      exact ⟨t, by rw [← htp]; simp⟩
    · rw [if_neg hp] at h
      cases hfs : firstSplitBefore cls rest with
      | none => rw [hfs] at h; cases h
      | some m' =>
        rw [hfs] at h
        injection h with hm
        obtain ⟨post, hp2⟩ := ih m' hfs
        refine ⟨post, ?_⟩
        rw [← hm, hp2]
        simp [List.append_assoc]

theorem firstSplitBefore_isSome_of (cls : List Char) :
    ∀ (mid post l : List Char), l = (mid ++ cls) ++ post →
      firstSplitBefore cls l ≠ none := by
  intro mid
  induction mid with
  | nil =>
    intro post l hl
    have hpre : cls.isPrefixOf l = true := by
      rw [List.isPrefixOf_iff_prefix, hl]
      simp [List.prefix_append]
    cases l with
    | nil =>
      have hcl : cls = [] :=
        List.prefix_nil.mp (List.isPrefixOf_iff_prefix.mp hpre)
      rw [firstSplitBefore, if_pos (by simp [hcl])]
      simp
    | cons a as =>
      rw [firstSplitBefore, if_pos hpre]
      simp
  | cons d ds ih =>
    intro post l hl
    have hl2 : l = d :: ((ds ++ cls) ++ post) := by
      rw [hl]
      simp
    subst hl2
    rw [firstSplitBefore]
    by_cases hp : cls.isPrefixOf (d :: ((ds ++ cls) ++ post)) = true
    · rw [if_pos hp]
      simp
    · rw [if_neg hp]
      cases hfs : firstSplitBefore cls ((ds ++ cls) ++ post) with
      | none => exact absurd hfs (ih post _ rfl)
      | some mm => simp

theorem findBetween_isSome_iff (opn cls : List Char) (hop : opn ≠ []) :
    ∀ cs, findBetween opn cls cs ≠ none ↔ ContainsBlock opn cls cs := by
  intro cs
  induction cs with
  | nil =>
    simp only [findBetween, ne_eq, not_true_eq_false, false_iff]
    rintro ⟨pre, mid, post, hcs⟩
    have hlen := congrArg List.length hcs
    simp only [List.length_nil, List.length_append] at hlen
    have : opn.length = 0 := by omega
    exact hop (List.length_eq_zero.mp this)
  | cons c rest ih =>
    cases hba : betweenAt opn cls (c :: rest) with
    | some s =>
      have hfind : findBetween opn cls (c :: rest) = some s := by
        rw [findBetween, hba]
      constructor
      · intro _
        unfold betweenAt at hba
        by_cases hp : opn.isPrefixOf (c :: rest) = true
        · rw [if_pos hp] at hba
          obtain ⟨t, htp⟩ := List.isPrefixOf_iff_prefix.mp hp
          have hdrop : (c :: rest).drop opn.length = t := by
            rw [← htp, List.drop_left]
          rw [hdrop] at hba
          obtain ⟨post, hpost⟩ := firstSplitBefore_some_imp cls t s hba
          refine ⟨[], s, post, ?_⟩
          rw [← htp, hpost]
          simp [List.append_assoc]
        · rw [if_neg hp] at hba
          cases hba
      · intro _
        rw [hfind]
        simp
    | none =>
      have hfind : findBetween opn cls (c :: rest) = findBetween opn cls rest := by
        rw [findBetween, hba]
      rw [ne_eq, hfind, ← ne_eq, ih]
      constructor
      · rintro ⟨pre, mid, post, hcs⟩
        exact ⟨c :: pre, mid, post, by rw [hcs]; simp⟩
      · rintro ⟨pre, mid, post, hcs⟩
        cases pre with
        | nil =>
          exfalso
          apply absurd hba
          unfold betweenAt
          have hform : c :: rest = opn ++ ((mid ++ cls) ++ post) := by
            rw [hcs]
            simp [List.append_assoc]
          have hp : opn.isPrefixOf (c :: rest) = true := by
            rw [List.isPrefixOf_iff_prefix]
            exact ⟨(mid ++ cls) ++ post, hform.symm⟩
          rw [if_pos hp]
          have hdrop : (c :: rest).drop opn.length = (mid ++ cls) ++ post := by
            rw [hform, List.drop_left]
          rw [hdrop]
          exact firstSplitBefore_isSome_of cls mid post _ rfl
        | cons p pre' =>
          simp only [List.cons_append] at hcs
          injection hcs with hc hrest
          exact ⟨pre', mid, post, hrest⟩

/-! ## Lemmas: parse-level structure (C3, C10) -/

theorem parseCompiledAgent_none_iff (content : List Char) (a : Artifact) :
    parseCompiledAgent content a = none ↔ findAgentAttrs content = none := by
  cases hf : findAgentAttrs content <;> simp [parseCompiledAgent, hf]

theorem parseCompiledAgent_some_eq (content : List Char) (a : Artifact)
    (attrs : List Char) (hf : findAgentAttrs content = some attrs) :
    parseCompiledAgent content a = some
      { name := (findAttr ("name=\"".data) attrs).getD a.name
        title := (findAttr ("title=\"".data) attrs).getD a.description
        icon := (findAttr ("icon=\"".data) attrs).getD ("🤖".data)
        role := personaField ("<role>".data) ("</role>".data) content
        identity := personaField ("<identity>".data) ("</identity>".data) content
        communicationStyle := personaField ("<communication_style>".data)
          ("</communication_style>".data) content
        principles := personaField ("<principles>".data) ("</principles>".data)
          content
        menuItems := menuField content } := by
  simp [parseCompiledAgent, hf]

theorem personaField_of_absent (opn cls content : List Char)
    (h : findBetween ("<persona>".data) ("</persona>".data) content = none) :
    personaField opn cls content = [] := by
  simp [personaField, h]

theorem menuField_of_absent (content : List Char)
    (h : findBetween ("<menu>".data) ("</menu>".data) content = none) :
    menuField content = [] := by
  simp [menuField, h]

/-! ## Lemmas: file pair writer (C1) and cleanup (C5) -/

theorem processAgentWrites_eq (o : WOracle) (jp pp : List Char)
    (fs : List (List Char)) :
    processAgentWrites o jp pp fs =
      if o.configOk && o.writePromptOk && o.writeJsonOk
      then (true, fsWrite jp (fsWrite pp fs))
      else (false, cleanupPair o jp pp
        (if o.configOk && o.writePromptOk then fsWrite pp fs else fs)) := by
  unfold processAgentWrites
  cases hc : o.configOk <;> cases hwp : o.writePromptOk <;>
    cases hwj : o.writeJsonOk <;> simp

theorem mem_fsWrite_self (p : List Char) (l : List (List Char)) :
    p ∈ fsWrite p l := by
  unfold fsWrite
  by_cases h : p ∈ l
  · rw [if_pos h]; exact h
  · rw [if_neg h]; simp

theorem mem_fsWrite_of_mem (p q : List Char) (l : List (List Char))
    (hq : q ∈ l) : q ∈ fsWrite p l := by
  unfold fsWrite
  by_cases h : p ∈ l
  · rw [if_pos h]; exact hq
  · rw [if_neg h]; simp [hq]

theorem not_mem_fsRemove_self (p : List Char) (l : List (List Char)) :
    p ∉ fsRemove true p l := by
  simp [fsRemove, List.mem_filter]

theorem mem_of_mem_fsRemove (p q : List Char) (l : List (List Char))
    (h : q ∈ fsRemove true p l) : q ∈ l := by
  simp only [fsRemove, if_pos, List.mem_filter] at h
  exact h.1

theorem cleanupDir_spec (ok : List Char → Bool) (fs : List (List Char)) :
    (∀ g ∈ fs, startsWithBmad g = false →
      g ∈ removeFiles ok (fs.filter startsWithBmad) fs) ∧
    (∀ g ∈ fs, startsWithBmad g = true → ok g = true →
      g ∉ removeFiles ok (fs.filter startsWithBmad) fs) ∧
    (∀ g ∈ removeFiles ok (fs.filter startsWithBmad) fs, g ∈ fs) ∧
    ((∀ g, ok g = true) →
      removeFiles ok (fs.filter startsWithBmad) fs =
        fs.filter (fun g => !startsWithBmad g)) := by
  refine ⟨?_, ?_, ?_, ?_⟩
  · intro g hg hb
    rw [mem_removeFiles]
    refine ⟨hg, ?_⟩
    rintro ⟨hmem, -⟩
    have := List.of_mem_filter hmem
    rw [hb] at this
    cases this
  · intro g hg hb hok
    rw [mem_removeFiles]
    rintro ⟨-, hno⟩
    exact hno ⟨List.mem_filter.mpr ⟨hg, hb⟩, hok⟩
  · intro g hg
    exact ((mem_removeFiles ok _ fs g).mp hg).1
  · intro hall
    rw [removeFiles_filter]
    apply List.filter_congr
    intro g hgmem
    rw [hall g]
    by_cases hb : startsWithBmad g = true
    · have hcont : (fs.filter startsWithBmad).contains g = true := by
        simp only [List.contains]
        exact List.elem_iff.mpr (List.mem_filter.mpr ⟨hgmem, hb⟩)
      rw [hcont, hb]
      simp
    · have hb' : startsWithBmad g = false := Bool.eq_false_iff.mpr hb
      have hcont : (fs.filter startsWithBmad).contains g = false := by
        simp only [List.contains]
        rw [← Bool.not_eq_true]
        intro he
        have := List.of_mem_filter (List.elem_iff.mp he)
        rw [hb'] at this
        cases this
      rw [hcont, hb']
      simp

/-! ## The claims -/

/-- C1 (counterexample to the claim as stated): when the json write fails
and the subsequent best-effort removal of the already-written prompt file
also fails (the source swallows that removal error with
`fs.remove(...).catch(() => {})`), the call propagates the error yet leaves
exactly one file of the pair — the prompt file — persisted. -/
theorem processAgentWrites_leaves_one_file_cex :
    (processAgentWrites ⟨true, true, false, false, true⟩ ("a.json".data)
        ("a-prompt.md".data) []).1 = false ∧
    ("a-prompt.md".data) ∈ (processAgentWrites ⟨true, true, false, false, true⟩
        ("a.json".data) ("a-prompt.md".data) []).2 ∧
    ("a.json".data) ∉ (processAgentWrites ⟨true, true, false, false, true⟩
        ("a.json".data) ("a-prompt.md".data) []).2 := by
  decide

/-- C1 (amended): provided the two best-effort removals of the catch block
themselves succeed, `processAgentArtifact` is all-or-nothing: on normal
return both the json and the prompt path are persisted; when the call
throws (config construction / validation / either write failed), neither
path remains; and the call returns normally exactly when config
construction and both writes succeed. -/
theorem processAgentWrites_atomic_of_removals_ok (o : WOracle)
    (jp pp : List Char) (fs : List (List Char))
    (hrp : o.removePromptOk = true) (hrj : o.removeJsonOk = true) :
    ((processAgentWrites o jp pp fs).1 = true →
      jp ∈ (processAgentWrites o jp pp fs).2 ∧
      pp ∈ (processAgentWrites o jp pp fs).2) ∧
    ((processAgentWrites o jp pp fs).1 = false →
      jp ∉ (processAgentWrites o jp pp fs).2 ∧
      pp ∉ (processAgentWrites o jp pp fs).2) ∧
    ((processAgentWrites o jp pp fs).1 =
      (o.configOk && o.writePromptOk && o.writeJsonOk)) := by
  rw [processAgentWrites_eq]
  by_cases hok : (o.configOk && o.writePromptOk && o.writeJsonOk) = true
  · rw [if_pos hok, hok]
    refine ⟨fun _ => ⟨mem_fsWrite_self jp _,
      mem_fsWrite_of_mem jp pp _ (mem_fsWrite_self pp fs)⟩, fun h => ?_, rfl⟩
    cases h
  · rw [if_neg hok]
    have hok' := Bool.eq_false_iff.mpr hok
    refine ⟨fun h => ?_, fun _ => ?_, by rw [hok']⟩
    · cases h
    · unfold cleanupPair
      rw [hrp, hrj]
      constructor
      · exact not_mem_fsRemove_self jp _
      · intro hmem
        exact not_mem_fsRemove_self pp _ (mem_of_mem_fsRemove jp pp _ hmem)

/-- Witness for C1 (amended) at a concrete oracle and filesystem. -/
theorem processAgentWrites_atomic_witness :
    ((processAgentWrites ⟨true, true, true, true, true⟩ ("a.json".data)
        ("a-prompt.md".data) []).1 = true →
      ("a.json".data) ∈ (processAgentWrites ⟨true, true, true, true, true⟩
        ("a.json".data) ("a-prompt.md".data) []).2 ∧
      ("a-prompt.md".data) ∈ (processAgentWrites ⟨true, true, true, true, true⟩
        ("a.json".data) ("a-prompt.md".data) []).2) ∧
    ((processAgentWrites ⟨true, true, true, true, true⟩ ("a.json".data)
        ("a-prompt.md".data) []).1 = false →
      ("a.json".data) ∉ (processAgentWrites ⟨true, true, true, true, true⟩
        ("a.json".data) ("a-prompt.md".data) []).2 ∧
      ("a-prompt.md".data) ∉ (processAgentWrites ⟨true, true, true, true, true⟩
        ("a.json".data) ("a-prompt.md".data) []).2) ∧
    ((processAgentWrites ⟨true, true, true, true, true⟩ ("a.json".data)
        ("a-prompt.md".data) []).1 = (true && true && true)) :=
  processAgentWrites_atomic_of_removals_ok ⟨true, true, true, true, true⟩
    ("a.json".data) ("a-prompt.md".data) [] rfl rfl

/-- C2: `sanitizeAgentName` (lower-case, collapse each whitespace run to a
single hyphen, strip everything outside `[a-z0-9-]`) always yields a string
of the language `[a-z0-9-]*`, and it is idempotent. -/
theorem sanitizeAgentName_props (s : List Char) :
    (sanitizeAgentName s).all allowedChar = true ∧
    sanitizeAgentName (sanitizeAgentName s) = sanitizeAgentName s :=
  ⟨sanitize_all_allowed s, sanitize_idem s⟩

/-- C4: `createAgentConfig` validates the built configuration object before
returning it: on success it returns exactly the built object and the
validator accepted it; on validator rejection it throws one error whose
message aggregates every field-level validation error (each formatted
error is part of the message), and no object is returned. -/
theorem createAgentConfig_validation (V : Validator) (nm : List Char)
    (d : AgentData) :
    ((V (mkAgentConfig nm d)).1 = true →
      createAgentConfig V nm d = Except.ok (mkAgentConfig nm d)) ∧
    ((V (mkAgentConfig nm d)).1 = false →
      createAgentConfig V nm d = Except.error (("Invalid agent schema: ".data)
        ++ joinComma (((V (mkAgentConfig nm d)).2).map fmtErr)) ∧
      ∀ e ∈ (V (mkAgentConfig nm d)).2,
        (fmtErr e) <:+: (("Invalid agent schema: ".data)
          ++ joinComma (((V (mkAgentConfig nm d)).2).map fmtErr))) ∧
    (∀ cfg, createAgentConfig V nm d = Except.ok cfg →
      cfg = mkAgentConfig nm d ∧ (V cfg).1 = true) := by
  refine ⟨?_, ?_, ?_⟩
  · intro hv
    unfold createAgentConfig validateAgentJson
    rw [if_pos hv]
  · intro hv
    constructor
    · unfold createAgentConfig validateAgentJson
      rw [if_neg (by rw [hv]; simp)]
    · intro e he
      have hinf : fmtErr e <:+: joinComma (((V (mkAgentConfig nm d)).2).map fmtErr) :=
        mem_infix_joinComma (fmtErr e) _ (List.mem_map_of_mem fmtErr he)
      exact hinf.trans (List.suffix_append _ _).isInfix
  · intro cfg hok
    unfold createAgentConfig validateAgentJson at hok
    by_cases hv : (V (mkAgentConfig nm d)).1 = true
    · rw [if_pos hv] at hok
      injection hok with h
      subst h
      exact ⟨rfl, hv⟩
    · rw [if_neg hv] at hok
      cases hok

/-- C9: the configuration object's description uses the record's role when
non-empty and otherwise its title (prefixed by the record's name, as the
source template does), its prompt reference is derived deterministically
from the sanitized identifier as `file://<identifier>-prompt.md`, and
`createAgentConfig` only returns this object after the validator accepted
it. -/
theorem createAgentConfig_fields (V : Validator) (nm : List Char)
    (d : AgentData) :
    (d.role ≠ [] → (mkAgentConfig nm d).description =
      d.name ++ (" - ".data) ++ d.role) ∧
    (d.role = [] → (mkAgentConfig nm d).description =
      d.name ++ (" - ".data) ++ d.title) ∧
    ((mkAgentConfig nm d).prompt =
      ("file://".data) ++ nm ++ ("-prompt.md".data)) ∧
    (∀ cfg, createAgentConfig V nm d = Except.ok cfg →
      cfg = mkAgentConfig nm d ∧ (V (mkAgentConfig nm d)).1 = true) := by
  refine ⟨?_, ?_, ?_, ?_⟩
  · intro hr
    simp [mkAgentConfig, List.isEmpty_iff, hr]
  · intro hr
    simp [mkAgentConfig, List.isEmpty_iff, hr]
  · have hne : (nm ++ ("-prompt.md".data)).isEmpty = false := by
      cases nm with
      | nil => decide
      | cons x xs => simp
    simp [mkAgentConfig, posixJoinDot, hne, List.append_assoc]
  · intro cfg hok
    unfold createAgentConfig validateAgentJson at hok
    by_cases hv : (V (mkAgentConfig nm d)).1 = true
    · rw [if_pos hv] at hok
      injection hok with h
      subst h
      exact ⟨rfl, hv⟩
    · rw [if_neg hv] at hok
      cases hok

/-- C5: `cleanup` is selective and fault-tolerant: in each of the agents
and commands directories every file not starting with `bmad` survives
untouched and nothing new appears; every `bmad`-prefixed file whose
individual removal succeeds is removed even when removals of other files
fail (failures are logged and skipped, never aborting the loop); when
every removal succeeds the directory is left with exactly the
non-`bmad` files; and the steering directory, when present, is removed
wholesale (when its removal succeeds). -/
theorem cleanupTree_selective (o : RemovalOracle) (t : KiroTree) :
    (∀ fs, t.agents = some fs →
      ∃ fs', (cleanupTree o t).agents = some fs' ∧
        (∀ g ∈ fs, startsWithBmad g = false → g ∈ fs') ∧
        (∀ g ∈ fs, startsWithBmad g = true → o.agentsOk g = true → g ∉ fs') ∧
        (∀ g ∈ fs', g ∈ fs) ∧
        ((∀ g, o.agentsOk g = true) →
          fs' = fs.filter (fun g => !startsWithBmad g))) ∧
    (∀ fs, t.commands = some fs →
      ∃ fs', (cleanupTree o t).commands = some fs' ∧
        (∀ g ∈ fs, startsWithBmad g = false → g ∈ fs') ∧
        (∀ g ∈ fs, startsWithBmad g = true → o.commandsOk g = true → g ∉ fs') ∧
        (∀ g ∈ fs', g ∈ fs) ∧
        ((∀ g, o.commandsOk g = true) →
          fs' = fs.filter (fun g => !startsWithBmad g))) ∧
    (t.agents = none → (cleanupTree o t).agents = none) ∧
    (t.commands = none → (cleanupTree o t).commands = none) ∧
    (t.steering = true → o.steeringOk = true →
      (cleanupTree o t).steering = false) ∧
    (t.steering = false → (cleanupTree o t).steering = false) := by
  refine ⟨?_, ?_, ?_, ?_, ?_, ?_⟩
  · intro fs hfs
    obtain ⟨h1, h2, h3, h4⟩ := cleanupDir_spec o.agentsOk fs
    exact ⟨removeFiles o.agentsOk (fs.filter startsWithBmad) fs,
      by simp [cleanupTree, hfs], h1, h2, h3, h4⟩
  · intro fs hfs
    obtain ⟨h1, h2, h3, h4⟩ := cleanupDir_spec o.commandsOk fs
    exact ⟨removeFiles o.commandsOk (fs.filter startsWithBmad) fs,
      by simp [cleanupTree, hfs], h1, h2, h3, h4⟩
  · intro h
    simp [cleanupTree, h]
  · intro h
    simp [cleanupTree, h]
  · intro hs hok
    simp [cleanupTree, hs, hok]
  · intro hs
    simp [cleanupTree, hs]

/-- C6: in `setup`, a per-unit failure while processing one agent artifact
is caught at the unit boundary and recorded as a skipped item (name and
reason, in order) while every remaining artifact is still processed — the
successfully processed units are exactly the non-failing ones and every
unit is accounted for; the run aborts (throws, producing no output) only
when the BMAD input root is missing. -/
theorem setupAgents_per_unit_isolation (folder : List Char)
    (arts : List ArtifactOutcome) :
    (setupAgents folder false arts =
      (Except.error (("Cannot proceed: ".data) ++ folder ++
        ("/ folder is required. Please install BMAD first.".data)), [])) ∧
    (setupAgents folder true arts =
      (Except.ok ((arts.filter isOkOutcome).length, arts.filterMap errPair),
        (arts.filter isOkOutcome).map (fun a => a.name))) ∧
    ((arts.filter isOkOutcome).length + (arts.filterMap errPair).length =
      arts.length) := by
  refine ⟨rfl, ?_, count_outcomes arts⟩
  unfold setupAgents
  rw [if_pos rfl, runAgentLoop_eq]

/-- C7: `generatePrompt` emits exactly the sections of the specification's
conditional rendering — a titled section for each of role, identity,
communication style, principles and menu only when that field is
non-empty, with the menu entries numbered 1, 2, ... in extraction order —
and always ends with the closing instructional paragraph, which references
the unit's identifier. -/
theorem generatePrompt_sections (d : AgentData) :
    generatePrompt d = generatePromptSpec d ∧
    (d.name <:+: closingInstr d.name) ∧
    ∃ pre, generatePrompt d = pre ++ closingInstr d.name := by
  refine ⟨generatePrompt_eq_spec d, ?_, ?_⟩
  · exact ⟨("## Instructions\nYou are ".data), _, rfl⟩
  · exact ⟨_, rfl⟩

/-- C8: `discoverAllModules` returns `core` first exactly when
`<root>/core/agents` exists, followed in directory-listing order by every
other immediate subdirectory that is a directory, is not named `core`,
does not start with `_`, and contains an `agents/` subdirectory; a failure
to list the root is non-fatal and returns what was accumulated (possibly
just `core`). -/
theorem discoverAllModules_order_and_fallback (core readdirOk : Bool)
    (entries : List ModuleEntry) :
    (discoverAllModules core readdirOk entries =
      (if core then [("core".data)] else []) ++
      (if readdirOk then (entries.filter goodEntry).map (fun e => e.name)
        else [])) ∧
    ((("core".data) ∈ discoverAllModules core readdirOk entries) ↔
      core = true) ∧
    ((discoverAllModules core readdirOk entries).head? =
        some ("core".data) ↔ core = true) ∧
    (readdirOk = false →
      discoverAllModules core readdirOk entries =
        (if core then [("core".data)] else [])) := by
  have heq := discoverAllModules_eq core readdirOk entries
  refine ⟨heq, ?_, ?_, ?_⟩
  · rw [heq]
    cases core with
    | true => simp
    | false =>
      simp only [if_false, List.nil_append, Bool.false_eq_true, iff_false]
      intro hmem
      cases readdirOk with
      | false => simp at hmem
      | true =>
        rw [if_pos rfl] at hmem
        exact goodEntry_name_ne_core _ entries hmem rfl
  · rw [heq]
    cases core with
    | true => simp
    | false =>
      simp only [if_false, List.nil_append, Bool.false_eq_true, iff_false]
      intro hhead
      cases readdirOk with
      | false => simp at hhead
      | true =>
        rw [if_pos rfl] at hhead
        have hmem := List.mem_of_mem_head? hhead
        exact goodEntry_name_ne_core _ entries hmem rfl
  · intro hro
    rw [heq, hro]
    simp

/-- C3: `parseCompiledAgent` returns `null` exactly when the text contains
no opening `<agent ...>` tag with attributes; when the tag is present but
no `<persona>...</persona>` block occurs, it still returns a record whose
role, identity, communication style and principles are all the empty
string; and when no `<menu>...</menu>` block occurs the record's menu-item
list is empty — none of these absences is an error. -/
theorem parseCompiledAgent_absence_behavior (content : List Char)
    (a : Artifact) :
    (parseCompiledAgent content a = none ↔ ¬ HasAgentTag content) ∧
    (HasAgentTag content →
      ¬ ContainsBlock ("<persona>".data) ("</persona>".data) content →
      ∃ d, parseCompiledAgent content a = some d ∧ d.role = [] ∧
        d.identity = [] ∧ d.communicationStyle = [] ∧ d.principles = []) ∧
    (HasAgentTag content →
      ¬ ContainsBlock ("<menu>".data) ("</menu>".data) content →
      ∃ d, parseCompiledAgent content a = some d ∧ d.menuItems = []) := by
  have hiff := findAgentAttrs_isSome_iff content
  have hattrs_of : HasAgentTag content →
      ∃ attrs, findAgentAttrs content = some attrs := by
    intro hhas
    have hne := hiff.mpr hhas
    cases hfa : findAgentAttrs content with
    | none => exact absurd hfa hne
    | some x => exact ⟨x, rfl⟩
  refine ⟨?_, ?_, ?_⟩
  · rw [parseCompiledAgent_none_iff]
    constructor
    · intro h hhas
      exact (hiff.mpr hhas) h
    · intro h
      cases hfa : findAgentAttrs content with
      | none => rfl
      | some x => exact absurd (hiff.mp (by rw [hfa]; simp)) h
  · intro hhas hnoblock
    obtain ⟨attrs, hattrs⟩ := hattrs_of hhas
    have hpnone : findBetween ("<persona>".data) ("</persona>".data)
        content = none := by
      have hbi := findBetween_isSome_iff ("<persona>".data) ("</persona>".data)
        (by decide) content
      cases hfb : findBetween ("<persona>".data) ("</persona>".data) content with
      | none => rfl
      | some x => exact absurd (hbi.mp (by rw [hfb]; simp)) hnoblock
    exact ⟨_, parseCompiledAgent_some_eq content a attrs hattrs,
      personaField_of_absent _ _ _ hpnone,
      personaField_of_absent _ _ _ hpnone,
      personaField_of_absent _ _ _ hpnone,
      personaField_of_absent _ _ _ hpnone⟩
  · intro hhas hnoblock
    obtain ⟨attrs, hattrs⟩ := hattrs_of hhas
    have hmnone : findBetween ("<menu>".data) ("</menu>".data)
        content = none := by
      have hbi := findBetween_isSome_iff ("<menu>".data) ("</menu>".data)
        (by decide) content
      cases hfb : findBetween ("<menu>".data) ("</menu>".data) content with
      | none => rfl
      | some x => exact absurd (hbi.mp (by rw [hfb]; simp)) hnoblock
    exact ⟨_, parseCompiledAgent_some_eq content a attrs hattrs,
      menuField_of_absent _ hmnone⟩

/-- C10: when the matched agent tag's attribute text carries no `icon`
attribute, the parsed record's icon is the fixed hardcoded glyph `🤖`
(independent of the caller-supplied artifact), whereas an absent `name`
attribute falls back to the caller-supplied `artifact.name` and an absent
`title` attribute to the caller-supplied `artifact.description`. -/
theorem parseCompiledAgent_icon_default (content : List Char) (a : Artifact)
    (attrs : List Char) (hf : findAgentAttrs content = some attrs)
    (hicon : findAttr ("icon=\"".data) attrs = none) :
    ∃ d, parseCompiledAgent content a = some d ∧ d.icon = ("🤖".data) ∧
      (findAttr ("name=\"".data) attrs = none → d.name = a.name) ∧
      (findAttr ("title=\"".data) attrs = none →
        d.title = a.description) := by
  refine ⟨_, parseCompiledAgent_some_eq content a attrs hf, ?_, ?_, ?_⟩
  · simp [hicon]
  · intro h
    simp [h]
  · intro h
    simp [h]

/-- Witness for C10 at a concrete source document whose agent tag has no
`icon`, `name` or `title` attribute. -/
theorem parseCompiledAgent_icon_default_witness :
    ∃ d, parseCompiledAgent ("<agent x=\"1\">".data)
        ⟨"art".data, "artdesc".data⟩ = some d ∧ d.icon = ("🤖".data) ∧
      (findAttr ("name=\"".data) ("x=\"1\"".data) = none →
        d.name = ("art".data)) ∧
      (findAttr ("title=\"".data) ("x=\"1\"".data) = none →
        d.title = ("artdesc".data)) :=
  parseCompiledAgent_icon_default ("<agent x=\"1\">".data)
    ⟨"art".data, "artdesc".data⟩ ("x=\"1\"".data) (by decide) (by decide)

/-! ## A concrete end-to-end check (the specification's round-trip
scenario, §8): the example source document parses to the expected record,
and the generated prompt contains the expected role section and menu
line. -/

set_option maxRecDepth 10000 in
theorem roundTrip_example :
    parseCompiledAgent (("<agent name=\"pm\" title=\"Product Manager\" " ++
        "icon=\"🧭\"><persona><role>Leads planning</role></persona>" ++
        "<menu><item cmd=\"plan\">Create plan</item></menu></agent>").data)
      ⟨"art".data, "artdesc".data⟩ =
    some
      { name := "pm".data
        title := "Product Manager".data
        icon := "🧭".data
        role := "Leads planning".data
        identity := []
        communicationStyle := []
        principles := []
        menuItems := [⟨"plan".data, "Create plan".data⟩] } := by
  decide
